import Mathlib

/-!
Shallow embedding of the chatserver-lab repository core:
the variable-length integer codec and string framing
(`src/chatproto/src/netproto/encode.rs`, `decode.rs`) and the
message-server state machine (`src/chatproto/src/solutions/erasmus.rs`).

Byte streams are modelled as `List Nat` with every byte `< 256`; strings
are modelled by their UTF-8 byte sequences; Rust `HashMap`s are modelled
as association lists with unique keys (`alookup` / `ainsert` mirror
`HashMap::get` / `HashMap::insert`).
-/

namespace ChatProto

/-- Little-endian byte serialization of `m` on `k` bytes, as performed by
`write_u16::<LittleEndian>`, `write_u32`, `write_u64`, `write_u128`
(each byte is the value modulo 256, low byte first). -/
def toLE : Nat → Nat → List Nat
  | 0, _ => []
  | k + 1, m => (m % 256) :: toLE k (m / 256)

/-- Little-endian byte deserialization of `k` bytes, as performed by
`read_u16::<LittleEndian>` etc.; fails (short read) when fewer than `k`
bytes remain. Returns the value and the remaining stream. -/
def fromLE : Nat → List Nat → Option (Nat × List Nat)
  | 0, rest => some (0, rest)
  | _ + 1, [] => none
  | k + 1, b :: rest =>
    match fromLE k rest with
    | some (m, r) => some (b + 256 * m, r)
    | none => none

namespace encode

/-- Embedding of `encode::u128` from `src/chatproto/src/netproto/encode.rs` lines 13-32:
tiered variable-length encoding of an unsigned 128-bit value
(`m < 251` literal byte; then tags 251/252/253/254 followed by the
little-endian u16/u32/u64/u128 of `m`). -/
def u128 (m : Nat) : List Nat :=
  if m < 251 then [m]
  else if m < 2 ^ 16 then 251 :: toLE 2 m
  else if m < 2 ^ 32 then 252 :: toLE 4 m
  else if m < 2 ^ 64 then 253 :: toLE 8 m
  else 254 :: toLE 16 m

/-- Embedding of `encode::string` from `src/chatproto/src/netproto/encode.rs` lines 66-73:
the string's UTF-8 bytes prefixed by `write_u8(bytes.len() as u8)`, i.e. a
single raw length byte obtained by truncating the length to 8 bits. -/
def string (s : List Nat) : List Nat :=
  (s.length % 256) :: s

end encode

namespace decode

/-- Embedding of `decode::u128` from `src/chatproto/src/netproto/decode.rs` lines 16-29:
reads the tag byte, then the fixed-width little-endian payload selected by
the tag. A tag of 255 hits `todo!()` (a panic), modelled as `none`. -/
def u128 : List Nat → Option (Nat × List Nat)
  | [] => none
  | v :: rest =>
    if v < 251 then some (v, rest)
    else if v = 251 then fromLE 2 rest
    else if v = 252 then fromLE 4 rest
    else if v = 253 then fromLE 8 rest
    else if v = 254 then fromLE 16 rest
    else none

/-- Embedding of `decode::string` from `src/chatproto/src/netproto/decode.rs` lines 55-64:
reads a single raw length byte (`read_u8`), then exactly that many bytes.
(The subsequent `String::from_utf8` check is the identity on the byte
sequences we model; it fails only on invalid UTF-8.) -/
def string (bs : List Nat) : Option (List Nat × List Nat) :=
  match bs with
  | [] => none
  | len :: rest =>
    if len ≤ rest.length then some (rest.take len, rest.drop len) else none

end decode

theorem fromLE_toLE (k : Nat) : ∀ (m : Nat) (rest : List Nat), m < 256 ^ k →
    fromLE k (toLE k m ++ rest) = some (m, rest) := by
  induction k with
  | zero =>
    intro m rest hm
    interval_cases m
    simp [toLE, fromLE]
  | succ k ih =>
    intro m rest hm
    have hdiv : m / 256 < 256 ^ k := by
      rw [Nat.div_lt_iff_lt_mul (by norm_num)]
      calc m < 256 ^ (k + 1) := hm
        _ = 256 ^ k * 256 := by ring
    simp only [toLE, fromLE, List.cons_append, List.append_eq]
    rw [ih (m / 256) rest hdiv]
    simp only [Option.some.injEq, Prod.mk.injEq, and_true]
    omega

theorem toLE_length (k m : Nat) : (toLE k m).length = k := by
  induction k generalizing m with
  | zero => simp [toLE]
  | succ k ih => simp [toLE, ih]

theorem u128_decode_encode (m : Nat) (rest : List Nat) (hm : m < 2 ^ 128) :
    decode.u128 (encode.u128 m ++ rest) = some (m, rest) := by
  by_cases h1 : m < 251
  · simp [encode.u128, decode.u128, h1]
  · by_cases h2 : m < 2 ^ 16
    · simp only [encode.u128, if_neg h1, if_pos h2, List.cons_append, decode.u128]
      norm_num
      exact fromLE_toLE 2 m rest (by norm_num at h2 ⊢; omega)
    · by_cases h3 : m < 2 ^ 32
      · simp only [encode.u128, if_neg h1, if_neg h2, if_pos h3, List.cons_append, decode.u128]
        norm_num
        exact fromLE_toLE 4 m rest (by norm_num at h3 ⊢; omega)
      · by_cases h4 : m < 2 ^ 64
        · simp only [encode.u128, if_neg h1, if_neg h2, if_neg h3, if_pos h4,
            List.cons_append, decode.u128]
          norm_num
          exact fromLE_toLE 8 m rest (by norm_num at h4 ⊢; omega)
        · simp only [encode.u128, if_neg h1, if_neg h2, if_neg h3, if_neg h4,
            List.cons_append, decode.u128]
          norm_num
          exact fromLE_toLE 16 m rest (by norm_num at hm ⊢; omega)

/-- C8: for every `m : u128`, `decode::u128 (encode::u128 m) = m` (with any
trailing bytes preserved), and `encode::u128` is canonical: a single literal
byte for `m ≤ 250`, tag 251 plus a little-endian u16 for `251 ≤ m ≤ 2^16 - 1`,
tag 252 plus u32 for `m ≤ 2^32 - 1`, tag 253 plus u64 for `m ≤ 2^64 - 1`, and
tag 254 plus u128 otherwise — always the minimum-length tier that fits
(lengths 1, 3, 5, 9, 17 respectively). -/
theorem C8_u128_roundtrip_canonical (m : Nat) (rest : List Nat) (hm : m < 2 ^ 128) :
    decode.u128 (encode.u128 m ++ rest) = some (m, rest) ∧
    (m ≤ 250 → encode.u128 m = [m] ∧ (encode.u128 m).length = 1) ∧
    (251 ≤ m ∧ m < 2 ^ 16 →
      encode.u128 m = 251 :: toLE 2 m ∧ (encode.u128 m).length = 3) ∧
    (2 ^ 16 ≤ m ∧ m < 2 ^ 32 →
      encode.u128 m = 252 :: toLE 4 m ∧ (encode.u128 m).length = 5) ∧
    (2 ^ 32 ≤ m ∧ m < 2 ^ 64 →
      encode.u128 m = 253 :: toLE 8 m ∧ (encode.u128 m).length = 9) ∧
    (2 ^ 64 ≤ m →
      encode.u128 m = 254 :: toLE 16 m ∧ (encode.u128 m).length = 17) := by
  refine ⟨u128_decode_encode m rest hm, ?_, ?_, ?_, ?_, ?_⟩
  · intro h
    rw [encode.u128, if_pos (by omega)]
    exact ⟨rfl, rfl⟩
  · rintro ⟨ha, hb⟩
    rw [encode.u128, if_neg (by omega), if_pos hb]
    simp [toLE_length]
  · rintro ⟨ha, hb⟩
    rw [encode.u128, if_neg (by norm_num at ha ⊢; omega), if_neg (by omega), if_pos hb]
    simp [toLE_length]
  · rintro ⟨ha, hb⟩
    rw [encode.u128, if_neg (by norm_num at ha ⊢; omega),
      if_neg (by norm_num at ha ⊢; omega), if_neg (by omega), if_pos hb]
    simp [toLE_length]
  · intro ha
    rw [encode.u128, if_neg (by norm_num at ha ⊢; omega),
      if_neg (by norm_num at ha ⊢; omega), if_neg (by norm_num at ha ⊢; omega),
      if_neg (by omega)]
    simp [toLE_length]

theorem C8_u128_roundtrip_canonical_witness :
    decode.u128 (encode.u128 300 ++ [7]) = some (300, [7]) ∧
    encode.u128 300 = 251 :: toLE 2 300 :=
  ⟨(C8_u128_roundtrip_canonical 300 [7] (by norm_num)).1,
   ((C8_u128_roundtrip_canonical 300 [7] (by norm_num)).2.2.1 (by norm_num)).1⟩

set_option maxRecDepth 4000 in
/-- C9: the claim says `encode::string` writes the C1 variable-length
encoding of the byte length followed by the raw bytes, so that the round-trip
holds for all strings including those of byte length ≥ 251. The code instead
writes `bytes.len() as u8` — a single raw byte, truncating the length modulo
256 — contradicting its own comment ("write the size (using u128)"). Evaluated
at the failing input, a string of 256 `'a'` bytes: the length byte written is
0, decoding returns the empty string (round-trip broken), and the emitted
frame differs from the C1 framing `[251, 0, 1] ++ bytes`. -/
theorem C9_string_length_truncated :
    encode.string (List.replicate 256 97) = 0 :: List.replicate 256 97 ∧
    decode.string (encode.string (List.replicate 256 97)) =
      some ([], List.replicate 256 97) ∧
    encode.u128 (List.replicate 256 97).length = [251, 0, 1] ∧
    encode.string (List.replicate 256 97) ≠
      encode.u128 (List.replicate 256 97).length ++ List.replicate 256 97 := by
  exact ⟨by decide, by decide, by decide, by decide⟩

/-! Section: The message-server state machine (`src/chatproto/src/solutions/erasmus.rs`)

`ClientId` and `ServerId` are opaque 128-bit values compared only for
equality; we model them as `Nat`. Rust `HashMap`s become association lists
with unique keys; `VecDeque` mailboxes become lists (push_back appends at the
tail, pop_front takes the head). -/

abbrev ClientId := Nat
abbrev ServerId := Nat

/-- Embedding of `HashMap::get`: look up a key in an association list. -/
def alookup {β : Type} (k : Nat) : List (Nat × β) → Option β
  | [] => none
  | (k', v) :: rest => if k' = k then some v else alookup k rest

/-- Embedding of `HashMap::insert`: replace the binding if the key is present, otherwise
add it. -/
def ainsert {β : Type} (k : Nat) (v : β) : List (Nat × β) → List (Nat × β)
  | [] => [(k, v)]
  | (k', v') :: rest => if k' = k then (k, v) :: rest else (k', v') :: ainsert k v rest

/-- Embedding of `MessageInfo` from erasmus.rs lines 21-24: one buffered mailbox entry. -/
structure MessageInfo where
  src : ClientId
  content : String
deriving DecidableEq, Repr

/-- Embedding of `Stuff` from erasmus.rs lines 26-29: the kind of a known client. -/
inductive Stuff where
  | Local (name : String) (last_sequence : Nat)
  | Remote (server : Option ServerId)
deriving DecidableEq, Repr

/-- Embedding of `ClientInfo` from erasmus.rs lines 31-34. -/
structure ClientInfo where
  stuff : Stuff
  mailbox : List MessageInfo
deriving DecidableEq, Repr

/-- Embedding of `Server` from erasmus.rs lines 36-40 (the `RwLock`s disappear in this
sequential model; every handler takes the state and returns the new state). -/
structure Server where
  id : ServerId
  clients : List (ClientId × ClientInfo)
  routes : List (ServerId × List ServerId)
deriving DecidableEq, Repr

/-- Embedding of `ClientError` from the protocol (`messages.rs`, as used by erasmus.rs and
listed in §4.3 of the spec). -/
inductive ClientError where
  | WorkProofError
  | UnknownClient
  | SequenceError
  | BoxFull (c : ClientId)
  | InternalError
deriving DecidableEq, Repr

/-- Embedding of `FullyQualifiedMessage` (§3 of the spec; used throughout erasmus.rs). -/
structure FullyQualifiedMessage where
  src : ClientId
  srcsrv : ServerId
  dsts : List (ClientId × ServerId)
  content : String
deriving DecidableEq, Repr

/-- Embedding of `ServerMessage` (§4.3). The announced clients mapping is modelled as the
list of its entries in iteration order. -/
inductive ServerMessage where
  | Announce (route : List ServerId) (clients : List (ClientId × String))
  | Message (fqm : FullyQualifiedMessage)
deriving DecidableEq, Repr

/-- Embedding of `ClientMessage` (§4.3). -/
inductive ClientMessage where
  | Text (dest : ClientId) (content : String)
  | MText (dest : List ClientId) (content : String)
deriving DecidableEq, Repr

/-- Embedding of `ClientReply` (§4.3). -/
inductive ClientReply where
  | Delivered
  | Error (e : ClientError)
  | Delayed
  | Transfer (dest : ServerId) (m : ServerMessage)
deriving DecidableEq, Repr

/-- Embedding of `DelayedError` (used at erasmus.rs line 160 and testing.rs). -/
inductive DelayedError where
  | UnknownRecipient (c : ClientId)
deriving DecidableEq, Repr

/-- Embedding of `ClientPollReply` (§4.3). -/
inductive ClientPollReply where
  | Message (src : ClientId) (content : String)
  | DelayedError (e : DelayedError)
  | Nothing
deriving DecidableEq, Repr

/-- Embedding of `Outgoing` (an inter-server frame to hand to `nexthop`). -/
structure Outgoing where
  nexthop : ServerId
  message : FullyQualifiedMessage
deriving DecidableEq, Repr

/-- Embedding of `ServerReply` (returned by `handle_server_message`). -/
inductive ServerReply where
  | Outgoing (out : List Outgoing)
  | EmptyRoute
deriving DecidableEq, Repr

/-- Embedding of `Sequence<A>` (§3 of the spec; `messages.rs`). -/
structure Sequence (A : Type) where
  seqid : Nat
  src : ClientId
  workproof : Nat
  content : A

/-- Modelled from the spec: `MAILBOX_SIZE` is declared in `core.rs`, which is
not among the provided sources; the spec (§5, §6) fixes it as a compile-time
constant with recommended value 256. -/
def MAILBOX_SIZE : Nat := 256

/-- Embedding of `Server::new` (erasmus.rs lines 46-52): fresh state with empty maps. -/
def Server.new (id : ServerId) : Server :=
  { id := id, clients := [], routes := [] }

/-- Embedding of `register_local_client` (erasmus.rs lines 57-72). The Rust code draws the
fresh id from `Uuid::new_v4()`; the model makes that nondeterministic choice
an explicit argument. The record is a `Local` with `last_sequence = 0` and an
empty mailbox, inserted unconditionally. -/
def register_local_client (st : Server) (user_id : ClientId) (name : String) :
    ClientId × Server :=
  (user_id,
   { st with clients := ainsert user_id ⟨.Local name 0, []⟩ st.clients })

/-- Embedding of `handle_sequenced_message` (erasmus.rs lines 81-107). The workproof check
`verify_workproof nonce workproof WORKPROOF_STRENGTH` lives in the `workproof`
module, which is not among the provided sources; it is modelled from the spec
(§4.4) as an abstract predicate `wp nonce workproof` with the strength folded
in. The nonce is the 128-bit integer form of `sequence.src`, which in this
model is the id itself. -/
def handle_sequenced_message {A : Type} (wp : Nat → Nat → Bool) (st : Server)
    (sequence : Sequence A) : Except ClientError A × Server :=
  if ¬ wp sequence.src sequence.workproof then (.error .WorkProofError, st)
  else
    match alookup sequence.src st.clients with
    | some clientinfo =>
      match clientinfo.stuff with
      | .Local name last_sequence =>
        if last_sequence ≥ sequence.seqid then (.error .SequenceError, st)
        else
          let c' : ClientInfo := ⟨.Local name sequence.seqid, clientinfo.mailbox⟩
          (.ok sequence.content,
           { st with clients := ainsert sequence.src c' st.clients })
      | .Remote _ => (.error .UnknownClient, st)
    | none => (.error .UnknownClient, st)

/-- Embedding of `handle_single_message` (erasmus.rs lines 321-382). The two
`.expect("msg 1")`/`.expect("msg 2")` unwraps in the Transfer branch are
panics, modelled as `none`. -/
def handle_single_message (st : Server) (src dest : ClientId) (message : String) :
    Option (ClientReply × Server) :=
  match alookup dest st.clients with
  | some client =>
    match client.stuff with
    | .Local _ _ | .Remote none =>
      if MAILBOX_SIZE ≤ client.mailbox.length then
        some (.Error (.BoxFull dest), st)
      else
        let c' : ClientInfo := { client with mailbox := client.mailbox ++ [⟨src, message⟩] }
        some (.Delivered, { st with clients := ainsert dest c' st.clients })
    | .Remote (some destination_server) =>
      match alookup destination_server st.routes with
      | none => none
      | some route =>
        match route.getLast?, route.head? with
        | some tailhop, some headhop =>
          some (.Transfer tailhop
            (.Message ⟨src, st.id, [(dest, headhop)], message⟩), st)
        | _, _ => none
  | none =>
    some (.Delayed,
      { st with clients := ainsert dest ⟨.Remote none, [⟨src, message⟩]⟩ st.clients })

/-- The `MText` loop of `handle_client_message` (erasmus.rs lines 125-135):
one reply per destination, in order, threading the state. -/
def handle_msgs (st : Server) (src : ClientId) (dests : List ClientId)
    (content : String) : Option (List ClientReply × Server) :=
  match dests with
  | [] => some ([], st)
  | d :: rest =>
    match handle_single_message st src d content with
    | none => none
    | some (r, st') =>
      match handle_msgs st' src rest content with
      | none => none
      | some (rs, st'') => some (r :: rs, st'')

/-- Embedding of `handle_client_message` (erasmus.rs lines 120-137). -/
def handle_client_message (st : Server) (src : ClientId) (msg : ClientMessage) :
    Option (List ClientReply × Server) :=
  match msg with
  | .Text dest content =>
    match handle_single_message st src dest content with
    | none => none
    | some (r, st') => some ([r], st')
  | .MText dest content => handle_msgs st src dest content

/-- Embedding of `client_poll` (erasmus.rs lines 142-162). -/
def client_poll (st : Server) (client : ClientId) : ClientPollReply × Server :=
  match alookup client st.clients with
  | some client_info =>
    match client_info.mailbox with
    | message_info :: rest =>
      (.Message message_info.src message_info.content,
       { st with clients := ainsert client { client_info with mailbox := rest } st.clients })
    | [] => (.Nothing, st)
  | none => (.DelayedError (.UnknownRecipient client), st)

/-- Embedding of `list_users` (erasmus.rs lines 274-283): names of all `Local` clients. -/
def list_users (st : Server) : List (ClientId × String) :=
  st.clients.filterMap fun p =>
    match p.2.stuff with
    | .Local name _ => some (p.1, name)
    | .Remote _ => none

/-- The scan of `route_to` (erasmus.rs lines 288-310) over the routing table
in iteration order, accumulating the current best candidate: for each stored
route containing `destination` at position `index`, the candidate is
`self.id` followed by the reversed suffix starting at `index`; a strictly
shorter candidate replaces the best so far. -/
def route_to_aux (selfId : ServerId) (destination : ServerId) :
    List (ServerId × List ServerId) → Option (List ServerId) → Option (List ServerId)
  | [], best => best
  | (_, route_vec) :: rest, best =>
    match route_vec.findIdx? (fun x => x = destination) with
    | some index =>
      let current_route := selfId :: (route_vec.drop index).reverse
      let best' :=
        match best with
        | some existing_route =>
          if current_route.length < existing_route.length then some current_route
          else some existing_route
        | none => some current_route
      route_to_aux selfId destination rest best'
    | none => route_to_aux selfId destination rest best

/-- Embedding of `route_to` (erasmus.rs lines 288-310). -/
def route_to (st : Server) (destination : ServerId) : Option (List ServerId) :=
  route_to_aux st.id destination st.routes none

/-- The client-processing loop of the `Announce` branch of
`handle_server_message` (erasmus.rs lines 185-213): each announced client is
set to `Remote { server = Some next_hop } ` with its mailbox drained; the
drained messages become `Outgoing` frames with `nexthop = remote_server`
(the last element of the route) and `dsts = [(client_id, next_hop)]`. -/
def announce_clients (selfId : ServerId) (remote_server next_hop : ServerId)
    (todo : List (ClientId × String)) (myclients : List (ClientId × ClientInfo))
    (acc : List Outgoing) : List (ClientId × ClientInfo) × List Outgoing :=
  match todo with
  | [] => (myclients, acc)
  | (client_id, _) :: rest =>
    match alookup client_id myclients with
    | some entry =>
      let drained := entry.mailbox.map fun mi =>
        Outgoing.mk remote_server ⟨mi.src, selfId, [(client_id, next_hop)], mi.content⟩
      announce_clients selfId remote_server next_hop rest
        (ainsert client_id ⟨.Remote (some next_hop), []⟩ myclients) (acc ++ drained)
    | none =>
      announce_clients selfId remote_server next_hop rest
        (ainsert client_id ⟨.Remote (some next_hop), []⟩ myclients) acc

/-- The destination loop of the `Message` branch of `handle_server_message`
(erasmus.rs lines 224-267): `Local` destinations get the message appended to
their mailbox (no capacity check, regardless of the destination server id);
`Remote { Some route_server } ` destinations yield an `Outgoing` with
`nexthop = route_server` when `route_to dest_server` is known, and are
silently dropped otherwise; `Remote { None } ` and unknown destinations are
skipped. `st` carries the (unchanged) routing table and server id. -/
def message_dsts (st : Server) (fqm : FullyQualifiedMessage)
    (todo : List (ClientId × ServerId)) (myclients : List (ClientId × ClientInfo))
    (acc : List Outgoing) : List (ClientId × ClientInfo) × List Outgoing :=
  match todo with
  | [] => (myclients, acc)
  | (dest_client, dest_server) :: rest =>
    match alookup dest_client myclients with
    | some client_info =>
      match client_info.stuff with
      | .Local _ _ =>
        let c' : ClientInfo :=
          { client_info with mailbox := client_info.mailbox ++ [⟨fqm.src, fqm.content⟩] }
        message_dsts st fqm rest (ainsert dest_client c' myclients) acc
      | .Remote (some route_server) =>
        let c' : ClientInfo := { client_info with stuff := .Remote (some route_server) }
        let myclients' := ainsert dest_client c' myclients
        match route_to st dest_server with
        | some _ =>
          let out : Outgoing :=
            ⟨route_server, ⟨fqm.src, st.id, [(dest_client, dest_server)], fqm.content⟩⟩
          message_dsts st fqm rest myclients' (acc ++ [out])
        | none => message_dsts st fqm rest myclients' acc
      | .Remote none => message_dsts st fqm rest myclients acc
    | none => message_dsts st fqm rest myclients acc

/-- Embedding of `handle_server_message` (erasmus.rs lines 175-272). In the `Announce`
branch the route is stored under `next_hop = first(route)`; the empty route
gives `EmptyRoute`. -/
def handle_server_message (st : Server) (msg : ServerMessage) : ServerReply × Server :=
  match msg with
  | .Announce route clients =>
    match route.getLast?, route.head? with
    | some remote_server, some next_hop =>
      let routes' := ainsert next_hop route st.routes
      let r := announce_clients st.id remote_server next_hop clients st.clients []
      (.Outgoing r.2, { st with clients := r.1, routes := routes' })
    | _, _ => (.EmptyRoute, st)
  | .Message fqm =>
    let r := message_dsts st fqm fqm.dsts st.clients []
    (.Outgoing r.2, { st with clients := r.1 })

/-- The states reachable from `Server.new id` by any sequence of the public
operations (erasmus.rs). `handle_sequenced_message`'s state effect does not
depend on the payload type, so `Unit` payloads suffice; `wp` ranges over all
workproof predicates. A `handle_client_message` step requires the call not to
panic (`some`). `list_users` does not change the state. -/
inductive Reachable : Server → Prop where
  | init (id : ServerId) : Reachable (Server.new id)
  | register (st : Server) (h : Reachable st) (user_id : ClientId) (name : String) :
      Reachable (register_local_client st user_id name).2
  | seqmsg (st : Server) (h : Reachable st) (wp : Nat → Nat → Bool) (s : Sequence Unit) :
      Reachable (handle_sequenced_message wp st s).2
  | clientmsg (st : Server) (h : Reachable st) (src : ClientId) (msg : ClientMessage)
      (res : List ClientReply × Server)
      (hr : handle_client_message st src msg = some res) : Reachable res.2
  | servermsg (st : Server) (h : Reachable st) (msg : ServerMessage) :
      Reachable (handle_server_message st msg).2
  | poll (st : Server) (h : Reachable st) (client : ClientId) :
      Reachable (client_poll st client).2

/-- The routing-table shape invariant: every stored entry is non-empty and
starts with its own key (the code stores each announced route under its first
element). -/
def RoutesHeadOK (st : Server) : Prop :=
  ∀ d r, alookup d st.routes = some r → r ≠ [] ∧ r.head? = some d

/-- What the destination loop of the `Message` branch emits for one
`(dest_client, dest_server)` pair: an `Outgoing` with `nexthop` equal to the
client record's `via` exactly when the destination client is known as
`Remote { via = Some v } ` and `route_to dest_server` is known; nothing in
every other case (Local records get a mailbox delivery instead, absent and
`Remote { via = None } ` records are skipped, unknown routes are dropped). -/
def forwardEntry (st : Server) (fqm : FullyQualifiedMessage)
    (p : ClientId × ServerId) : Option Outgoing :=
  match alookup p.1 st.clients with
  | some ci =>
    match ci.stuff with
    | .Remote (some v) =>
      match route_to st p.2 with
      | some _ => some ⟨v, ⟨fqm.src, st.id, [(p.1, p.2)], fqm.content⟩⟩
      | none => none
    | _ => none
  | none => none

def RoutesOK (st : Server) : Prop :=
  ∀ c ci, alookup c st.clients = some ci → ∀ s, ci.stuff = .Remote (some s) →
    ∃ r, alookup s st.routes = some r ∧ r ≠ []

/-- Mailbox length of a client, 0 when unknown (a measurement helper). -/
def mailbox_len (st : Server) (c : ClientId) : Nat :=
  match alookup c st.clients with
  | some ci => ci.mailbox.length
  | none => 0

/-- A fully-qualified message carrying `MAILBOX_SIZE + 1` copies of the same
local destination. -/
def overflowMsg : FullyQualifiedMessage :=
  ⟨0, 0, List.replicate (MAILBOX_SIZE + 1) ((1 : ClientId), (0 : ServerId)), "x"⟩

/-- Register client 1, then deliver `overflowMsg` via `handle_server_message`;
every copy is appended to client 1's mailbox with no capacity check. -/
def overflowState : Server :=
  (handle_server_message ((register_local_client (Server.new 0) 1 "n").2)
    (.Message overflowMsg)).2

/-- The states reachable without inter-server `Message` deliveries (Announces
are still allowed): the fragment on which the mailbox bound actually holds. -/
inductive ReachableNF : Server → Prop where
  | init (id : ServerId) : ReachableNF (Server.new id)
  | register (st : Server) (h : ReachableNF st) (user_id : ClientId) (name : String) :
      ReachableNF (register_local_client st user_id name).2
  | seqmsg (st : Server) (h : ReachableNF st) (wp : Nat → Nat → Bool) (s : Sequence Unit) :
      ReachableNF (handle_sequenced_message wp st s).2
  | clientmsg (st : Server) (h : ReachableNF st) (src : ClientId) (msg : ClientMessage)
      (res : List ClientReply × Server)
      (hr : handle_client_message st src msg = some res) : ReachableNF res.2
  | announce (st : Server) (h : ReachableNF st) (route : List ServerId)
      (clients : List (ClientId × String)) :
      ReachableNF (handle_server_message st (.Announce route clients)).2
  | poll (st : Server) (h : ReachableNF st) (client : ClientId) :
      ReachableNF (client_poll st client).2

def MailboxOK (st : Server) : Prop :=
  ∀ c ci, alookup c st.clients = some ci → ci.mailbox.length ≤ MAILBOX_SIZE

/-! Section: Association-list lemmas -/

theorem alookup_ainsert_self {β : Type} (k : Nat) (v : β) (l : List (Nat × β)) :
    alookup k (ainsert k v l) = some v := by
  induction l with
  | nil => simp [ainsert, alookup]
  | cons p rest ih =>
    by_cases h : p.1 = k
    · simp [ainsert, alookup, h]
    · simpa [ainsert, alookup, h] using ih

theorem alookup_ainsert_ne {β : Type} (k k' : Nat) (v : β) (l : List (Nat × β))
    (h : k' ≠ k) : alookup k (ainsert k' v l) = alookup k l := by
  induction l with
  | nil => simp [ainsert, alookup, h]
  | cons p rest ih =>
    by_cases hp : p.1 = k'
    · simp [ainsert, alookup, hp, h]
    · by_cases hpk : p.1 = k
      · simp [ainsert, alookup, hp, hpk, Ne.symm h]
      · simpa [ainsert, alookup, hp, hpk] using ih

/-! Section: C4: sequenced-message admission -/

/-- C4: `handle_sequenced_message` returns `WorkProofError` when the
workproof check on the nonce derived from `seq.src` fails; otherwise
`UnknownClient` when `seq.src` is absent or Remote; otherwise `SequenceError`
when the Local record's `last_sequence ≥ seq.seqid`; otherwise sets
`last_sequence := seq.seqid` and returns `seq.content`. On every error outcome
the state is unchanged; on success only the `last_sequence` of that one client
changes (name and mailbox are preserved, as is everything else). -/
theorem C4_sequenced_admission {A : Type} (wp : Nat → Nat → Bool) (st : Server)
    (seq : Sequence A) :
    (wp seq.src seq.workproof = false →
      handle_sequenced_message wp st seq = (.error .WorkProofError, st)) ∧
    (wp seq.src seq.workproof = true → alookup seq.src st.clients = none →
      handle_sequenced_message wp st seq = (.error .UnknownClient, st)) ∧
    (∀ ci, wp seq.src seq.workproof = true → alookup seq.src st.clients = some ci →
      (∀ s, ci.stuff = .Remote s →
        handle_sequenced_message wp st seq = (.error .UnknownClient, st)) ∧
      (∀ name last, ci.stuff = .Local name last →
        (seq.seqid ≤ last →
          handle_sequenced_message wp st seq = (.error .SequenceError, st)) ∧
        (last < seq.seqid →
          handle_sequenced_message wp st seq =
            (.ok seq.content,
             { st with clients :=
                ainsert seq.src ⟨.Local name seq.seqid, ci.mailbox⟩ st.clients })))) := by
  refine ⟨?_, ?_, ?_⟩
  · intro h
    simp [handle_sequenced_message, h]
  · intro h hnone
    simp [handle_sequenced_message, h, hnone]
  · intro ci h hsome
    constructor
    · intro s hs
      simp [handle_sequenced_message, h, hsome, hs]
    · intro name last hl
      constructor
      · intro hle
        simp [handle_sequenced_message, h, hsome, hl, hle]
      · intro hlt
        simp [handle_sequenced_message, h, hsome, hl, Nat.not_le.mpr hlt,
          Nat.not_le_of_lt hlt]

theorem C4_sequenced_admission_witness :
    handle_sequenced_message (fun _ _ => false) (Server.new 0)
      (⟨1, 1, 0, 0⟩ : Sequence Nat) = (.error .WorkProofError, Server.new 0) :=
  (C4_sequenced_admission (fun _ _ => false) (Server.new 0) ⟨1, 1, 0, 0⟩).1 rfl

/-! Section: C1: dispatch of a client message to a buffered or unknown destination -/

/-- C1 (counterexample): the claim says a destination present as
`Remote { via = None } ` with mailbox below capacity gets the message appended
and the reply `Delayed`. In the reachable state where client 2 is such a
record (created by an earlier message from client 1 to the then-unknown
client 2), a second message yields the reply `Delivered`, not `Delayed`. -/
theorem C1_remote_none_counterexample :
    Reachable (⟨0, [(2, ⟨.Remote none, [⟨1, "a"⟩]⟩)], []⟩ : Server) ∧
    handle_client_message (Server.new 0) 1 (.Text 2 "a") =
      some ([.Delayed], ⟨0, [(2, ⟨.Remote none, [⟨1, "a"⟩]⟩)], []⟩) ∧
    (handle_client_message (⟨0, [(2, ⟨.Remote none, [⟨1, "a"⟩]⟩)], []⟩ : Server)
        1 (.Text 2 "b")).map (fun p => p.1) = some [ClientReply.Delivered] ∧
    (ClientReply.Delivered ≠ ClientReply.Delayed) := by
  refine ⟨?_, by decide, by decide, by decide⟩
  exact Reachable.clientmsg (Server.new 0) (Reachable.init 0) 1 (.Text 2 "a")
    ([.Delayed], ⟨0, [(2, ⟨.Remote none, [⟨1, "a"⟩]⟩)], []⟩) (by decide)

/-- C1 (amended): for a destination present as `Remote { via = None } `
with mailbox below capacity, `handle_single_message` appends `(src, content)`
to its mailbox and returns `Delivered` (the same path as a Local destination;
at capacity it returns `Error (BoxFull dest)`); for a destination not present
at all it creates a `Remote { via = None } ` record whose mailbox holds the
message and returns `Delayed`. -/
theorem C1_dispatch_amended (st : Server) (src dest : ClientId) (msg : String) :
    (∀ mb, alookup dest st.clients = some ⟨.Remote none, mb⟩ →
      mb.length < MAILBOX_SIZE →
      handle_single_message st src dest msg =
        some (.Delivered,
          { st with clients :=
              ainsert dest ⟨.Remote none, mb ++ [⟨src, msg⟩]⟩ st.clients })) ∧
    (∀ mb, alookup dest st.clients = some ⟨.Remote none, mb⟩ →
      MAILBOX_SIZE ≤ mb.length →
      handle_single_message st src dest msg = some (.Error (.BoxFull dest), st)) ∧
    (alookup dest st.clients = none →
      handle_single_message st src dest msg =
        some (.Delayed,
          { st with clients := ainsert dest ⟨.Remote none, [⟨src, msg⟩]⟩ st.clients })) := by
  refine ⟨?_, ?_, ?_⟩
  · intro mb hsome hlt
    simp [handle_single_message, hsome, Nat.not_le_of_lt hlt]
  · intro mb hsome hle
    simp [handle_single_message, hsome, hle]
  · intro hnone
    simp [handle_single_message, hnone]

theorem C1_dispatch_amended_witness :
    handle_single_message (⟨0, [(2, ⟨.Remote none, [⟨1, "a"⟩]⟩)], []⟩ : Server)
        1 2 "b" =
      some (.Delivered, ⟨0, [(2, ⟨.Remote none, [⟨1, "a"⟩, ⟨1, "b"⟩]⟩)], []⟩) ∧
    handle_single_message (Server.new 0) 1 2 "a" =
      some (.Delayed, ⟨0, [(2, ⟨.Remote none, [⟨1, "a"⟩]⟩)], []⟩) := by
  constructor
  · exact (C1_dispatch_amended ⟨0, [(2, ⟨.Remote none, [⟨1, "a"⟩]⟩)], []⟩ 1 2 "b").1
      [⟨1, "a"⟩] (by decide) (by decide)
  · exact (C1_dispatch_amended (Server.new 0) 1 2 "a").2.2 (by decide)

/-! Section: C6: the federation-transfer scenario -/

/-- C6: starting from a fresh server, after registering a local client
`c₁` and handling `Announce { route = [s₁, s₂, s₃], clients = { e → "ext" } } `
(which returns `Outgoing []`), `handle_client_message c₁ (Text e "Hi")`
returns exactly `[Transfer s₃ (Message ⟨c₁, self.id, [(e, s₁)], "Hi"⟩)]`: the
transfer's first-hop server id is `s₃` and the server id carried in `dsts` is
`s₁`, and the state is unchanged by the send. -/
theorem C6_federation_transfer (sid : ServerId) (c₁ e : ClientId)
    (s₁ s₂ s₃ : ServerId) (name : String) (hne : e ≠ c₁) :
    (handle_server_message ((register_local_client (Server.new sid) c₁ name).2)
        (.Announce [s₁, s₂, s₃] [(e, "ext")])).1 = .Outgoing [] ∧
    handle_client_message
        ((handle_server_message ((register_local_client (Server.new sid) c₁ name).2)
          (.Announce [s₁, s₂, s₃] [(e, "ext")])).2) c₁ (.Text e "Hi") =
      some ([.Transfer s₃ (.Message ⟨c₁, sid, [(e, s₁)], "Hi"⟩)],
        (handle_server_message ((register_local_client (Server.new sid) c₁ name).2)
          (.Announce [s₁, s₂, s₃] [(e, "ext")])).2) := by
  have hne' : c₁ ≠ e := Ne.symm hne
  constructor
  · simp [register_local_client, Server.new, handle_server_message, ainsert,
      announce_clients, alookup, hne']
  · simp [register_local_client, Server.new, handle_server_message, ainsert,
      announce_clients, alookup, hne', handle_client_message,
      handle_single_message, hne]

theorem C6_federation_transfer_witness :
    (handle_server_message ((register_local_client (Server.new 0) 1 "user").2)
        (.Announce [3, 4, 5] [(2, "ext")])).1 = .Outgoing [] ∧
    handle_client_message
        ((handle_server_message ((register_local_client (Server.new 0) 1 "user").2)
          (.Announce [3, 4, 5] [(2, "ext")])).2) 1 (.Text 2 "Hi") =
      some ([.Transfer 5 (.Message ⟨1, 0, [(2, 3)], "Hi"⟩)],
        (handle_server_message ((register_local_client (Server.new 0) 1 "user").2)
          (.Announce [3, 4, 5] [(2, "ext")])).2) :=
  C6_federation_transfer 0 1 2 3 4 5 "user" (by decide)

/-! Section: Helper lemmas about the Announce branch -/

theorem getLast?_cons_exists {α : Type} (a : α) (t : List α) :
    ∃ b, (a :: t).getLast? = some b := by
  induction t generalizing a with
  | nil => exact ⟨a, rfl⟩
  | cons x t ih =>
    obtain ⟨b, hb⟩ := ih x
    exact ⟨b, by rw [List.getLast?_cons_cons, hb]⟩

theorem handle_server_announce_nil (st : Server) (clients : List (ClientId × String)) :
    handle_server_message st (.Announce [] clients) = (.EmptyRoute, st) := rfl

theorem handle_server_message_msg (st : Server) (fqm : FullyQualifiedMessage) :
    handle_server_message st (.Message fqm) =
      (.Outgoing (message_dsts st fqm fqm.dsts st.clients []).2,
       { st with clients := (message_dsts st fqm fqm.dsts st.clients []).1 }) := rfl

/-- Reduction of the `Announce` branch for a non-empty route `a :: t` with
last element `b`. -/
theorem handle_server_announce_cons (st : Server) (a : ServerId) (t : List ServerId)
    (clients : List (ClientId × String)) (b : ServerId)
    (hb : (a :: t).getLast? = some b) :
    handle_server_message st (.Announce (a :: t) clients) =
      (.Outgoing (announce_clients st.id b a clients st.clients []).2,
       { st with
          clients := (announce_clients st.id b a clients st.clients []).1,
          routes := ainsert a (a :: t) st.routes }) := by
  simp only [handle_server_message, hb, List.head?_cons]

theorem announce_clients_notmem (selfId rs nh : ServerId) (c : ClientId) :
    ∀ (todo : List (ClientId × String)) (m : List (ClientId × ClientInfo))
      (acc : List Outgoing), c ∉ todo.map Prod.fst →
      alookup c (announce_clients selfId rs nh todo m acc).1 = alookup c m := by
  intro todo
  induction todo with
  | nil => intro m acc _; simp [announce_clients]
  | cons p rest ih =>
    intro m acc hc
    obtain ⟨k, nm⟩ := p
    simp only [List.map_cons, List.mem_cons, not_or] at hc
    obtain ⟨hck, hcr⟩ := hc
    unfold announce_clients
    cases h : alookup k m with
    | some entry =>
      simp only [h]
      rw [ih _ _ hcr, alookup_ainsert_ne _ _ _ _ (fun e => hck e.symm)]
    | none =>
      simp only [h]
      rw [ih _ _ hcr, alookup_ainsert_ne _ _ _ _ (fun e => hck e.symm)]

theorem announce_clients_mem (selfId rs nh : ServerId) (c : ClientId) :
    ∀ (todo : List (ClientId × String)) (m : List (ClientId × ClientInfo))
      (acc : List Outgoing), c ∈ todo.map Prod.fst →
      alookup c (announce_clients selfId rs nh todo m acc).1 =
        some ⟨.Remote (some nh), []⟩ := by
  intro todo
  induction todo with
  | nil => intro m acc hc; simp at hc
  | cons p rest ih =>
    intro m acc hc
    obtain ⟨k, nm⟩ := p
    by_cases hcr : c ∈ rest.map Prod.fst
    · unfold announce_clients
      cases h : alookup k m <;> simp only [h] <;> exact ih _ _ hcr
    · have hck : c = k := by
        simp only [List.map_cons, List.mem_cons] at hc
        tauto
      subst hck
      unfold announce_clients
      cases h : alookup c m with
      | some entry =>
        simp only [h]
        rw [announce_clients_notmem _ _ _ _ _ _ _ hcr, alookup_ainsert_self]
      | none =>
        simp only [h]
        rw [announce_clients_notmem _ _ _ _ _ _ _ hcr, alookup_ainsert_self]

/-! Section: Routes are only touched by the Announce branch -/

theorem register_routes_eq (st : Server) (uid : ClientId) (name : String) :
    ((register_local_client st uid name).2).routes = st.routes := rfl

theorem sequenced_routes_eq {A : Type} (wp : Nat → Nat → Bool) (st : Server)
    (s : Sequence A) : ((handle_sequenced_message wp st s).2).routes = st.routes := by
  unfold handle_sequenced_message
  repeat' split
  all_goals rfl

theorem single_routes_eq (st : Server) (src dest : ClientId) (m : String)
    (p : ClientReply × Server) (h : handle_single_message st src dest m = some p) :
    p.2.routes = st.routes := by
  unfold handle_single_message at h
  repeat' split at h
  all_goals first
  | exact Option.noConfusion h
  | (cases h; rfl)

theorem msgs_routes_eq (st : Server) (src : ClientId) (dests : List ClientId)
    (content : String) (p : List ClientReply × Server)
    (h : handle_msgs st src dests content = some p) : p.2.routes = st.routes := by
  induction dests generalizing st p with
  | nil =>
    unfold handle_msgs at h
    cases h
    rfl
  | cons d rest ih =>
    unfold handle_msgs at h
    split at h
    · exact Option.noConfusion h
    · rename_i r st' h1
      split at h
      · exact Option.noConfusion h
      · rename_i rs st'' h2
        cases h
        exact (ih st' (rs, st'') h2).trans (single_routes_eq st src d content (r, st') h1)

theorem clientmsg_routes_eq (st : Server) (src : ClientId) (msg : ClientMessage)
    (p : List ClientReply × Server) (h : handle_client_message st src msg = some p) :
    p.2.routes = st.routes := by
  cases msg with
  | Text dest content =>
    simp only [handle_client_message] at h
    split at h
    · exact Option.noConfusion h
    · rename_i r st' h1
      cases h
      exact single_routes_eq st src dest content (r, st') h1
  | MText dest content => exact msgs_routes_eq st src dest content p h

theorem poll_routes_eq (st : Server) (c : ClientId) :
    ((client_poll st c).2).routes = st.routes := by
  unfold client_poll
  repeat' split
  all_goals rfl

theorem reachable_routesHeadOK (st : Server) (h : Reachable st) : RoutesHeadOK st := by
  induction h with
  | init id => intro d r hr; simp [Server.new, alookup] at hr
  | register st h uid name ih =>
    intro d r hr; rw [register_routes_eq] at hr; exact ih d r hr
  | seqmsg st h wp s ih =>
    intro d r hr; rw [sequenced_routes_eq] at hr; exact ih d r hr
  | clientmsg st h src msg res hr' ih =>
    intro d r hr; rw [clientmsg_routes_eq st src msg res hr'] at hr; exact ih d r hr
  | poll st h client ih =>
    intro d r hr; rw [poll_routes_eq] at hr; exact ih d r hr
  | servermsg st h msg ih =>
    cases msg with
    | Message fqm =>
      intro d r hr
      rw [handle_server_message_msg] at hr
      exact ih d r hr
    | Announce route clients =>
      cases route with
      | nil => rw [handle_server_announce_nil]; exact ih
      | cons a t =>
        obtain ⟨b, hb⟩ := getLast?_cons_exists a t
        rw [handle_server_announce_cons st a t clients b hb]
        intro d r hr
        by_cases hda : a = d
        · subst hda
          rw [alookup_ainsert_self] at hr
          cases hr
          exact ⟨by simp, rfl⟩
        · rw [alookup_ainsert_ne _ _ _ _ hda] at hr
          exact ih d r hr

/-! Section: C2: what an Announce does to a Local record -/

/-- C2 (counterexample): the claim says a Local record is never
overwritten by an Announce. From a fresh server, register client 1 (Local),
then process `Announce { route = [5, 6], clients = { 1 → "x" } } `: client 1's
record becomes `Remote { via = Some 5 } `, no longer the Local record. -/
theorem C2_local_overwritten_counterexample :
    Reachable ((register_local_client (Server.new 0) 1 "n").2) ∧
    Reachable ((handle_server_message ((register_local_client (Server.new 0) 1 "n").2)
      (.Announce [5, 6] [(1, "x")])).2) ∧
    alookup 1 ((register_local_client (Server.new 0) 1 "n").2).clients =
      some ⟨.Local "n" 0, []⟩ ∧
    alookup 1 ((handle_server_message ((register_local_client (Server.new 0) 1 "n").2)
        (.Announce [5, 6] [(1, "x")])).2).clients = some ⟨.Remote (some 5), []⟩ ∧
    (∀ name ls mb, (⟨.Remote (some 5), []⟩ : ClientInfo) ≠ ⟨.Local name ls, mb⟩) := by
  refine ⟨?_, ?_, by decide, by decide, ?_⟩
  · exact Reachable.register (Server.new 0) (Reachable.init 0) 1 "n"
  · exact Reachable.servermsg _ (Reachable.register (Server.new 0) (Reachable.init 0) 1 "n") _
  · intro name ls mb heq
    cases heq

/-- C2 (amended): an Announce overwrites the record of every client id it
mentions — Local records included — with `Remote { via = first(route) } ` and
an emptied mailbox; a client record (Local or otherwise) survives an Announce
unchanged only when the Announce's clients set does not mention its id. -/
theorem C2_announce_overwrites (st : Server) (route : List ServerId)
    (clients : List (ClientId × String)) (cid : ClientId) (ci : ClientInfo)
    (hci : alookup cid st.clients = some ci) :
    (cid ∉ clients.map Prod.fst →
      alookup cid (handle_server_message st (.Announce route clients)).2.clients =
        some ci) ∧
    (∀ nh, cid ∈ clients.map Prod.fst → route.head? = some nh →
      alookup cid (handle_server_message st (.Announce route clients)).2.clients =
        some ⟨.Remote (some nh), []⟩) := by
  constructor
  · intro hnm
    cases route with
    | nil => rw [handle_server_announce_nil]; exact hci
    | cons a t =>
      obtain ⟨b, hb⟩ := getLast?_cons_exists a t
      rw [handle_server_announce_cons st a t clients b hb]
      simpa [announce_clients_notmem st.id b a cid clients st.clients [] hnm] using hci
  · intro nh hm hh
    cases route with
    | nil => simp at hh
    | cons a t =>
      obtain ⟨b, hb⟩ := getLast?_cons_exists a t
      have ha : a = nh := by simpa using hh
      subst ha
      rw [handle_server_announce_cons st a t clients b hb]
      simpa using announce_clients_mem st.id b a cid clients st.clients [] hm

theorem C2_announce_overwrites_witness :
    alookup 1 ((handle_server_message
        (⟨0, [(1, ⟨.Local "n" 0, []⟩), (2, ⟨.Local "m" 0, []⟩)], []⟩ : Server)
        (.Announce [5, 6] [(1, "x")])).2).clients = some ⟨.Remote (some 5), []⟩ ∧
    alookup 2 ((handle_server_message
        (⟨0, [(1, ⟨.Local "n" 0, []⟩), (2, ⟨.Local "m" 0, []⟩)], []⟩ : Server)
        (.Announce [5, 6] [(1, "x")])).2).clients = some ⟨.Local "m" 0, []⟩ := by
  constructor
  · exact (C2_announce_overwrites
      ⟨0, [(1, ⟨.Local "n" 0, []⟩), (2, ⟨.Local "m" 0, []⟩)], []⟩ [5, 6] [(1, "x")]
      1 ⟨.Local "n" 0, []⟩ (by decide)).2 5 (by decide) (by decide)
  · exact (C2_announce_overwrites
      ⟨0, [(1, ⟨.Local "n" 0, []⟩), (2, ⟨.Local "m" 0, []⟩)], []⟩ [5, 6] [(1, "x")]
      2 ⟨.Local "m" 0, []⟩ (by decide)).1 (by decide)

/-! Section: C5: what an Announce stores in the routing table -/

/-- C5 (counterexample): the claim says `Announce { route, clients } `
stores `routes[last(route)] := route` and gives announced clients
`via = last(route)`. After `Announce { route = [5, 6], clients = { 7 → "x" } } `
on a fresh server, the route is stored under key 5 = first(route) — key
6 = last(route) is absent — and client 7's record has `via = Some 5`. -/
theorem C5_routes_key_counterexample :
    alookup 6 ((handle_server_message (Server.new 0)
      (.Announce [5, 6] [(7, "x")])).2).routes = none ∧
    alookup 5 ((handle_server_message (Server.new 0)
      (.Announce [5, 6] [(7, "x")])).2).routes = some [5, 6] ∧
    alookup 7 ((handle_server_message (Server.new 0)
      (.Announce [5, 6] [(7, "x")])).2).clients = some ⟨.Remote (some 5), []⟩ ∧
    ((5 : ServerId) ≠ 6) := by
  refine ⟨by decide, by decide, by decide, by decide⟩

/-- C5 (amended): for every Announce with non-empty route,
`handle_server_message` stores `routes[nexthop] := route` where
`nexthop = first(route)` (the neighbor, not the announcing server), and every
announced client — Local records included — gets a Remote record with
`via = nexthop`; consequently, in every reachable state, every stored entry
`routes[d]` is non-empty and starts with `d` (it ends with the announcing
server of the Announce that stored it, not with `d`). -/
theorem C5_announce_stores_first (st : Server) (route : List ServerId)
    (clients : List (ClientId × String)) :
    (∀ nh, route.head? = some nh →
      alookup nh (handle_server_message st (.Announce route clients)).2.routes =
        some route ∧
      ∀ cid, cid ∈ clients.map Prod.fst →
        alookup cid (handle_server_message st (.Announce route clients)).2.clients =
          some ⟨.Remote (some nh), []⟩) ∧
    (∀ st', Reachable st' → ∀ d r, alookup d st'.routes = some r →
      r ≠ [] ∧ r.head? = some d) := by
  constructor
  · intro nh hh
    cases route with
    | nil => simp at hh
    | cons a t =>
      obtain ⟨b, hb⟩ := getLast?_cons_exists a t
      have ha : a = nh := by simpa using hh
      subst ha
      rw [handle_server_announce_cons st a t clients b hb]
      constructor
      · simpa using alookup_ainsert_self a (a :: t) st.routes
      · intro cid hm
        simpa using announce_clients_mem st.id b a cid clients st.clients [] hm
  · exact fun st' h => reachable_routesHeadOK st' h

theorem C5_announce_stores_first_witness :
    alookup 5 ((handle_server_message (Server.new 0)
      (.Announce [5, 6] [(7, "x")])).2).routes = some [5, 6] ∧
    alookup 7 ((handle_server_message (Server.new 0)
      (.Announce [5, 6] [(7, "x")])).2).clients = some ⟨.Remote (some 5), []⟩ := by
  have h := (C5_announce_stores_first (Server.new 0) [5, 6] [(7, "x")]).1 5 (by decide)
  exact ⟨h.1, h.2 7 (by decide)⟩

/-! Section: C7: the Message branch of handle_server_message -/

theorem agree_ainsert (st : Server) (m : List (ClientId × ClientInfo)) (dc : ClientId)
    (ci c' : ClientInfo) (hm : alookup dc m = some ci) (hstuff : c'.stuff = ci.stuff)
    (hag : ∀ c, (alookup c m).map ClientInfo.stuff =
      (alookup c st.clients).map ClientInfo.stuff) :
    ∀ c, (alookup c (ainsert dc c' m)).map ClientInfo.stuff =
      (alookup c st.clients).map ClientInfo.stuff := by
  intro c
  by_cases h : dc = c
  · subst h
    rw [alookup_ainsert_self, ← hag dc, hm]
    simp [hstuff]
  · rw [alookup_ainsert_ne _ _ _ _ h]
    exact hag c

theorem agree_stuff_some (st : Server) (m : List (ClientId × ClientInfo))
    (hag : ∀ c, (alookup c m).map ClientInfo.stuff =
      (alookup c st.clients).map ClientInfo.stuff)
    (dc : ClientId) (ci : ClientInfo) (hm : alookup dc m = some ci) :
    ∃ ci', alookup dc st.clients = some ci' ∧ ci'.stuff = ci.stuff := by
  have hd := hag dc
  rw [hm] at hd
  cases hstc : alookup dc st.clients with
  | none => rw [hstc] at hd; simp at hd
  | some x =>
    rw [hstc] at hd
    refine ⟨x, rfl, ?_⟩
    simpa using hd.symm

theorem agree_stuff_none (st : Server) (m : List (ClientId × ClientInfo))
    (hag : ∀ c, (alookup c m).map ClientInfo.stuff =
      (alookup c st.clients).map ClientInfo.stuff)
    (dc : ClientId) (hm : alookup dc m = none) :
    alookup dc st.clients = none := by
  have hd := hag dc
  rw [hm] at hd
  cases hstc : alookup dc st.clients with
  | none => rfl
  | some x => rw [hstc] at hd; simp at hd

theorem message_dsts_out (st : Server) (fqm : FullyQualifiedMessage) :
    ∀ (todo : List (ClientId × ServerId)) (m : List (ClientId × ClientInfo))
      (acc : List Outgoing),
      (∀ c, (alookup c m).map ClientInfo.stuff =
        (alookup c st.clients).map ClientInfo.stuff) →
      (message_dsts st fqm todo m acc).2 = acc ++ todo.filterMap (forwardEntry st fqm) := by
  intro todo
  induction todo with
  | nil => intro m acc _; simp [message_dsts]
  | cons p rest ih =>
    intro m acc hag
    obtain ⟨dc, ds⟩ := p
    rw [message_dsts]
    split
    · rename_i ci hm
      split
      · rename_i name ls hstuff
        obtain ⟨ci', hci', hs'⟩ := agree_stuff_some st m hag dc ci hm
        have hfe : forwardEntry st fqm (dc, ds) = none := by
          simp [forwardEntry, hci', hs', hstuff]
        refine Eq.trans (ih _ acc (agree_ainsert st m dc ci _ hm rfl hag)) ?_
        rw [List.filterMap_cons_none hfe]
      · rename_i v hstuff
        obtain ⟨ci', hci', hs'⟩ := agree_stuff_some st m hag dc ci hm
        split
        · rename_i r hr
          have hfe : forwardEntry st fqm (dc, ds) =
              some ⟨v, ⟨fqm.src, st.id, [(dc, ds)], fqm.content⟩⟩ := by
            simp [forwardEntry, hci', hs', hstuff, hr]
          refine Eq.trans (ih _ _ (agree_ainsert st m dc ci _ hm hstuff.symm hag)) ?_
          rw [List.filterMap_cons_some hfe]
          simp
        · rename_i hr
          have hfe : forwardEntry st fqm (dc, ds) = none := by
            simp [forwardEntry, hci', hs', hstuff, hr]
          refine Eq.trans (ih _ acc (agree_ainsert st m dc ci _ hm hstuff.symm hag)) ?_
          rw [List.filterMap_cons_none hfe]
      · rename_i hstuff
        obtain ⟨ci', hci', hs'⟩ := agree_stuff_some st m hag dc ci hm
        have hfe : forwardEntry st fqm (dc, ds) = none := by
          simp [forwardEntry, hci', hs', hstuff]
        refine Eq.trans (ih m acc hag) ?_
        rw [List.filterMap_cons_none hfe]
    · rename_i hm
      have hstc := agree_stuff_none st m hag dc hm
      have hfe : forwardEntry st fqm (dc, ds) = none := by
        simp [forwardEntry, hstc]
      refine Eq.trans (ih m acc hag) ?_
      rw [List.filterMap_cons_none hfe]

theorem message_dsts_stuff (st : Server) (fqm : FullyQualifiedMessage) :
    ∀ (todo : List (ClientId × ServerId)) (m : List (ClientId × ClientInfo))
      (acc : List Outgoing),
      (∀ c, (alookup c m).map ClientInfo.stuff =
        (alookup c st.clients).map ClientInfo.stuff) →
      ∀ c, (alookup c (message_dsts st fqm todo m acc).1).map ClientInfo.stuff =
        (alookup c st.clients).map ClientInfo.stuff := by
  intro todo
  induction todo with
  | nil => intro m acc hag; simpa [message_dsts] using hag
  | cons p rest ih =>
    intro m acc hag
    obtain ⟨dc, ds⟩ := p
    rw [message_dsts]
    split
    · rename_i ci hm
      split
      · rename_i name ls hstuff
        exact ih _ acc (agree_ainsert st m dc ci
          ⟨ci.stuff, ci.mailbox ++ [⟨fqm.src, fqm.content⟩]⟩ hm rfl hag)
      · rename_i v hstuff
        split
        · exact ih _ _ (agree_ainsert st m dc ci
            ⟨.Remote (some v), ci.mailbox⟩ hm hstuff.symm hag)
        · exact ih _ acc (agree_ainsert st m dc ci
            ⟨.Remote (some v), ci.mailbox⟩ hm hstuff.symm hag)
      · rename_i hstuff
        exact ih m acc hag
    · rename_i hm
      exact ih m acc hag

/-- C7 (counterexample): the claim says that for a dsts pair whose
destination is not Local here, the server emits one Outgoing along
`routes[dest_server]`, dropping the message only when no route is known.
After `Announce { route = [5], clients = {} } ` on a fresh server, a route to
server 5 is known (`route_to` returns `[0, 5]`), yet
`Message { dsts = [(3, 5)] } ` for the unknown client 3 emits nothing. -/
theorem C7_known_route_dropped_counterexample :
    route_to ((handle_server_message (Server.new 0) (.Announce [5] [])).2) 5 =
      some [0, 5] ∧
    alookup 3 ((handle_server_message (Server.new 0) (.Announce [5] [])).2).clients =
      none ∧
    (handle_server_message ((handle_server_message (Server.new 0) (.Announce [5] [])).2)
      (.Message ⟨2, 9, [(3, 5)], "m"⟩)).1 = .Outgoing [] ∧
    (∀ out : Outgoing, ServerReply.Outgoing [] ≠ .Outgoing [out]) := by
  refine ⟨by decide, by decide, by decide, ?_⟩
  intro out h
  cases h

theorem message_dsts_cons_none (st : Server) (fqm : FullyQualifiedMessage)
    (dc : ClientId) (ds : ServerId) (rest : List (ClientId × ServerId))
    (m : List (ClientId × ClientInfo)) (acc : List Outgoing)
    (h : alookup dc m = none) :
    message_dsts st fqm ((dc, ds) :: rest) m acc =
      message_dsts st fqm rest m acc := by
  rw [message_dsts, h]

theorem message_dsts_cons_local (st : Server) (fqm : FullyQualifiedMessage)
    (dc : ClientId) (ds : ServerId) (rest : List (ClientId × ServerId))
    (m : List (ClientId × ClientInfo)) (acc : List Outgoing) (name : String)
    (ls : Nat) (cmb : List MessageInfo)
    (h : alookup dc m = some ⟨.Local name ls, cmb⟩) :
    message_dsts st fqm ((dc, ds) :: rest) m acc =
      message_dsts st fqm rest
        (ainsert dc ⟨.Local name ls, cmb ++ [⟨fqm.src, fqm.content⟩]⟩ m) acc := by
  rw [message_dsts, h]

theorem message_dsts_cons_remote_some (st : Server) (fqm : FullyQualifiedMessage)
    (dc : ClientId) (ds : ServerId) (rest : List (ClientId × ServerId))
    (m : List (ClientId × ClientInfo)) (acc : List Outgoing) (v : ServerId)
    (cmb : List MessageInfo) (h : alookup dc m = some ⟨.Remote (some v), cmb⟩) :
    message_dsts st fqm ((dc, ds) :: rest) m acc =
      match route_to st ds with
      | some _ => message_dsts st fqm rest (ainsert dc ⟨.Remote (some v), cmb⟩ m)
          (acc ++ [⟨v, ⟨fqm.src, st.id, [(dc, ds)], fqm.content⟩⟩])
      | none => message_dsts st fqm rest (ainsert dc ⟨.Remote (some v), cmb⟩ m) acc := by
  rw [message_dsts, h]

theorem message_dsts_cons_remote_none (st : Server) (fqm : FullyQualifiedMessage)
    (dc : ClientId) (ds : ServerId) (rest : List (ClientId × ServerId))
    (m : List (ClientId × ClientInfo)) (acc : List Outgoing)
    (cmb : List MessageInfo) (h : alookup dc m = some ⟨.Remote none, cmb⟩) :
    message_dsts st fqm ((dc, ds) :: rest) m acc =
      message_dsts st fqm rest m acc := by
  rw [message_dsts, h]

theorem alookup_ainsert_lookup {β : Type} (k : Nat) (v : β) :
    ∀ (l : List (Nat × β)), alookup k l = some v →
      ∀ c, alookup c (ainsert k v l) = alookup c l := by
  intro l
  induction l with
  | nil => intro h; simp [alookup] at h
  | cons p rest ih =>
    intro h c
    obtain ⟨p1, p2⟩ := p
    by_cases hp : p1 = k
    · subst hp
      have hv : p2 = v := by simpa [alookup] using h
      subst hv
      simp [ainsert]
    · have hr : alookup k rest = some v := by simpa [alookup, hp] using h
      simp only [ainsert, if_neg hp, alookup]
      by_cases hpc : p1 = c
      · simp [hpc]
      · simp [hpc, ih hr c]

theorem message_dsts_clients (st : Server) (fqm : FullyQualifiedMessage) :
    ∀ (todo : List (ClientId × ServerId)) (m : List (ClientId × ClientInfo))
      (acc : List Outgoing) (c : ClientId),
      alookup c (message_dsts st fqm todo m acc).1 =
        match alookup c m with
        | none => none
        | some ci =>
          match ci.stuff with
          | .Local _ _ => some { ci with mailbox := ci.mailbox ++ List.replicate (todo.countP (fun p => p.1 == c)) ⟨fqm.src, fqm.content⟩ }
          | .Remote _ => some ci := by
  intro todo
  induction todo with
  | nil =>
    intro m acc c
    simp only [message_dsts, List.countP_nil, List.replicate_zero, List.append_nil]
    cases h : alookup c m with
    | none => rfl
    | some ci =>
      obtain ⟨cs, cmb⟩ := ci
      cases cs <;> rfl
  | cons p rest ih =>
    intro m acc c
    obtain ⟨dc, ds⟩ := p
    cases hdc : alookup dc m with
    | none =>
      rw [message_dsts_cons_none st fqm dc ds rest m acc hdc]
      refine Eq.trans (ih m acc c) ?_
      by_cases hc : dc = c
      · subst hc
        simp [hdc]
      · have hcnt : ((dc, ds) :: rest).countP (fun p => p.1 == c) =
            rest.countP (fun p => p.1 == c) := by
          simp [List.countP_cons, hc]
        simp only [hcnt]
    | some ci =>
      obtain ⟨cs, cmb⟩ := ci
      cases cs with
      | Local name ls =>
        rw [message_dsts_cons_local st fqm dc ds rest m acc name ls cmb hdc]
        refine Eq.trans (ih _ acc c) ?_
        by_cases hc : dc = c
        · subst hc
          rw [alookup_ainsert_self, hdc]
          simp [List.countP_cons, List.replicate_succ, List.append_assoc]
        · rw [alookup_ainsert_ne _ _ _ _ hc]
          have hcnt : ((dc, ds) :: rest).countP (fun p => p.1 == c) =
              rest.countP (fun p => p.1 == c) := by
            simp [List.countP_cons, hc]
          simp only [hcnt]
      | Remote sv =>
        cases sv with
        | some v =>
          rw [message_dsts_cons_remote_some st fqm dc ds rest m acc v cmb hdc]
          have hins := alookup_ainsert_lookup dc ⟨.Remote (some v), cmb⟩ m hdc c
          cases hr : route_to st ds with
          | some r =>
            refine Eq.trans (ih _ _ c) ?_
            rw [hins]
            by_cases hc : dc = c
            · subst hc
              simp [hdc]
            · have hcnt : ((dc, ds) :: rest).countP (fun p => p.1 == c) =
                  rest.countP (fun p => p.1 == c) := by
                simp [List.countP_cons, hc]
              simp only [hcnt]
          | none =>
            refine Eq.trans (ih _ acc c) ?_
            rw [hins]
            by_cases hc : dc = c
            · subst hc
              simp [hdc]
            · have hcnt : ((dc, ds) :: rest).countP (fun p => p.1 == c) =
                  rest.countP (fun p => p.1 == c) := by
                simp [List.countP_cons, hc]
              simp only [hcnt]
        | none =>
          rw [message_dsts_cons_remote_none st fqm dc ds rest m acc cmb hdc]
          refine Eq.trans (ih m acc c) ?_
          by_cases hc : dc = c
          · subst hc
            simp [hdc]
          · have hcnt : ((dc, ds) :: rest).countP (fun p => p.1 == c) =
                rest.countP (fun p => p.1 == c) := by
              simp [List.countP_cons, hc]
            simp only [hcnt]

theorem handle_server_message_msg_clients (st : Server)
    (fqm : FullyQualifiedMessage) :
    (handle_server_message st (.Message fqm)).2.clients =
      (message_dsts st fqm fqm.dsts st.clients []).1 := rfl

/-- C7 (amended): for `handle_server_message (Message fqm)` and every pair
`(dest_client, dest_server)` in `fqm.dsts`, the emitted list is exactly
`fqm.dsts.filterMap (forwardEntry st fqm)`: a pair yields one Outgoing — with
`nexthop` the client record's `via` and `dsts = [(dest_client, dest_server)]`
— exactly when `dest_client` is known as `Remote { via = Some v } ` and
`route_to dest_server` is known; pairs whose client is absent or
`Remote { via = None } `, and pairs with no known route, emit nothing. On the
state: a `Local` destination client gets `(fqm.src, fqm.content)` appended to
its mailbox once per occurrence among the pairs, regardless of whether its
`dest_server` equals `self.id` and with no capacity check; every client known
as `Remote` (with or without `via`) keeps its record unchanged — nothing is
delivered to it — and a client absent from the map stays absent. -/
theorem C7_message_dispatch_amended (st : Server) (fqm : FullyQualifiedMessage) :
    (handle_server_message st (.Message fqm)).1 =
      .Outgoing (fqm.dsts.filterMap (forwardEntry st fqm)) ∧
    (∀ c, alookup c st.clients = none →
      alookup c (handle_server_message st (.Message fqm)).2.clients = none) ∧
    (∀ c ci sv, alookup c st.clients = some ci → ci.stuff = .Remote sv →
      alookup c (handle_server_message st (.Message fqm)).2.clients = some ci) ∧
    (∀ c ci name ls, alookup c st.clients = some ci → ci.stuff = .Local name ls →
      alookup c (handle_server_message st (.Message fqm)).2.clients =
        some { ci with mailbox := ci.mailbox ++ List.replicate (fqm.dsts.countP (fun p => p.1 == c)) ⟨fqm.src, fqm.content⟩ }) := by
  refine ⟨?_, ?_, ?_, ?_⟩
  · rw [handle_server_message_msg]
    rw [message_dsts_out st fqm fqm.dsts st.clients [] (fun c => rfl)]
    simp
  · intro c hc
    rw [handle_server_message_msg_clients,
      message_dsts_clients st fqm fqm.dsts st.clients [] c, hc]
  · intro c ci sv hc hs
    rw [handle_server_message_msg_clients,
      message_dsts_clients st fqm fqm.dsts st.clients [] c, hc]
    simp [hs]
  · intro c ci name ls hc hs
    rw [handle_server_message_msg_clients,
      message_dsts_clients st fqm fqm.dsts st.clients [] c, hc]
    simp [hs]

theorem C7_message_dispatch_amended_witness :
    (handle_server_message
        (⟨0, [(1, ⟨.Local "n" 0, []⟩), (2, ⟨.Remote none, [⟨9, "b"⟩]⟩)], []⟩ : Server)
        (.Message ⟨7, 9, [(1, 9), (3, 4), (2, 4), (1, 0)], "hi"⟩)).1 = .Outgoing [] ∧
    alookup 3 ((handle_server_message
        (⟨0, [(1, ⟨.Local "n" 0, []⟩), (2, ⟨.Remote none, [⟨9, "b"⟩]⟩)], []⟩ : Server)
        (.Message ⟨7, 9, [(1, 9), (3, 4), (2, 4), (1, 0)], "hi"⟩)).2).clients = none ∧
    alookup 2 ((handle_server_message
        (⟨0, [(1, ⟨.Local "n" 0, []⟩), (2, ⟨.Remote none, [⟨9, "b"⟩]⟩)], []⟩ : Server)
        (.Message ⟨7, 9, [(1, 9), (3, 4), (2, 4), (1, 0)], "hi"⟩)).2).clients =
      some ⟨.Remote none, [⟨9, "b"⟩]⟩ ∧
    alookup 1 ((handle_server_message
        (⟨0, [(1, ⟨.Local "n" 0, []⟩), (2, ⟨.Remote none, [⟨9, "b"⟩]⟩)], []⟩ : Server)
        (.Message ⟨7, 9, [(1, 9), (3, 4), (2, 4), (1, 0)], "hi"⟩)).2).clients =
      some ⟨.Local "n" 0, [⟨7, "hi"⟩, ⟨7, "hi"⟩]⟩ := by
  refine ⟨?_, ?_, ?_, ?_⟩
  · rw [(C7_message_dispatch_amended
      ⟨0, [(1, ⟨.Local "n" 0, []⟩), (2, ⟨.Remote none, [⟨9, "b"⟩]⟩)], []⟩
      ⟨7, 9, [(1, 9), (3, 4), (2, 4), (1, 0)], "hi"⟩).1]
    decide
  · exact (C7_message_dispatch_amended
      ⟨0, [(1, ⟨.Local "n" 0, []⟩), (2, ⟨.Remote none, [⟨9, "b"⟩]⟩)], []⟩
      ⟨7, 9, [(1, 9), (3, 4), (2, 4), (1, 0)], "hi"⟩).2.1 3 (by decide)
  · exact (C7_message_dispatch_amended
      ⟨0, [(1, ⟨.Local "n" 0, []⟩), (2, ⟨.Remote none, [⟨9, "b"⟩]⟩)], []⟩
      ⟨7, 9, [(1, 9), (3, 4), (2, 4), (1, 0)], "hi"⟩).2.2.1
      2 ⟨.Remote none, [⟨9, "b"⟩]⟩ none (by decide) rfl
  · rw [(C7_message_dispatch_amended
      ⟨0, [(1, ⟨.Local "n" 0, []⟩), (2, ⟨.Remote none, [⟨9, "b"⟩]⟩)], []⟩
      ⟨7, 9, [(1, 9), (3, 4), (2, 4), (1, 0)], "hi"⟩).2.2.2
      1 ⟨.Local "n" 0, []⟩ "n" 0 (by decide) rfl]
    decide

theorem routesOK_insert (st : Server) (h : RoutesOK st) (k : ClientId) (ci : ClientInfo)
    (hci : ∀ s, ci.stuff = .Remote (some s) →
      ∃ r, alookup s st.routes = some r ∧ r ≠ []) :
    RoutesOK { st with clients := ainsert k ci st.clients } := by
  intro c ci' hc s hs
  by_cases hk : k = c
  · subst hk
    rw [alookup_ainsert_self] at hc
    cases hc
    exact hci s hs
  · rw [alookup_ainsert_ne _ _ _ _ hk] at hc
    exact h c ci' hc s hs

theorem routesOK_single (st : Server) (src dest : ClientId) (m : String)
    (p : ClientReply × Server) (h : RoutesOK st)
    (hp : handle_single_message st src dest m = some p) : RoutesOK p.2 := by
  unfold handle_single_message at hp
  repeat' split at hp
  all_goals first
  | exact Option.noConfusion hp
  | (cases hp; exact h)
  | skip
  next =>
    rename ClientInfo => client
    rename (alookup dest st.clients = some client) => hlook
    cases hp
    exact routesOK_insert st h dest _ (fun u hu => h dest client hlook u hu)
  next =>
    rename ClientInfo => client
    rename (alookup dest st.clients = some client) => hlook
    cases hp
    exact routesOK_insert st h dest _ (fun u hu => h dest client hlook u hu)
  next =>
    cases hp
    exact routesOK_insert st h dest _ (by intro u hu; simp at hu)

theorem routesOK_register (st : Server) (uid : ClientId) (name : String)
    (h : RoutesOK st) : RoutesOK (register_local_client st uid name).2 :=
  routesOK_insert st h uid _ (by intro u hu; simp at hu)

theorem routesOK_sequenced {A : Type} (wp : Nat → Nat → Bool) (st : Server)
    (s : Sequence A) (h : RoutesOK st) :
    RoutesOK (handle_sequenced_message wp st s).2 := by
  unfold handle_sequenced_message
  repeat' split
  all_goals first
  | exact h
  | exact routesOK_insert st h _ _ (by intro u hu; simp at hu)

theorem routesOK_poll (st : Server) (c : ClientId) (h : RoutesOK st) :
    RoutesOK (client_poll st c).2 := by
  unfold client_poll
  repeat' split
  all_goals first
  | exact h
  | skip
  next =>
    rename ClientInfo => client
    rename (alookup c st.clients = some client) => hlook
    exact routesOK_insert st h c _ (fun u hu => h c client hlook u hu)

theorem routesOK_msgs (st : Server) (src : ClientId) (dests : List ClientId)
    (content : String) (p : List ClientReply × Server) (h : RoutesOK st)
    (hp : handle_msgs st src dests content = some p) : RoutesOK p.2 := by
  induction dests generalizing st p with
  | nil => unfold handle_msgs at hp; cases hp; exact h
  | cons d rest ih =>
    unfold handle_msgs at hp
    split at hp
    · exact Option.noConfusion hp
    · rename_i r st' h1
      split at hp
      · exact Option.noConfusion hp
      · rename_i rs st'' h2
        cases hp
        exact ih st' (rs, st'') (routesOK_single st src d content (r, st') h h1) h2

theorem routesOK_clientmsg (st : Server) (src : ClientId) (msg : ClientMessage)
    (p : List ClientReply × Server) (h : RoutesOK st)
    (hp : handle_client_message st src msg = some p) : RoutesOK p.2 := by
  cases msg with
  | Text dest content =>
    simp only [handle_client_message] at hp
    split at hp
    · exact Option.noConfusion hp
    · rename_i r st' h1
      cases hp
      exact routesOK_single st src dest content (r, st') h h1
  | MText dest content => exact routesOK_msgs st src dest content p h hp

theorem routesOK_server (st : Server) (msg : ServerMessage) (h : RoutesOK st) :
    RoutesOK (handle_server_message st msg).2 := by
  cases msg with
  | Message fqm =>
    rw [handle_server_message_msg]
    intro c ci hc u hu
    have hag := message_dsts_stuff st fqm fqm.dsts st.clients [] (fun c => rfl) c
    rw [hc] at hag
    cases hstc : alookup c st.clients with
    | none => rw [hstc] at hag; simp at hag
    | some ci' =>
      rw [hstc] at hag
      have hstuff : ci'.stuff = .Remote (some u) := by
        have : ci.stuff = ci'.stuff := by simpa using hag
        rw [← this, hu]
      exact h c ci' hstc u hstuff
  | Announce route clients =>
    cases route with
    | nil => rw [handle_server_announce_nil]; exact h
    | cons a t =>
      obtain ⟨b, hb⟩ := getLast?_cons_exists a t
      rw [handle_server_announce_cons st a t clients b hb]
      intro c ci hc u hu
      by_cases hcm : c ∈ clients.map Prod.fst
      · rw [announce_clients_mem st.id b a c clients st.clients [] hcm] at hc
        cases hc
        have hua : a = u := by simpa using hu
        subst hua
        exact ⟨a :: t, alookup_ainsert_self _ _ _, by simp⟩
      · rw [announce_clients_notmem st.id b a c clients st.clients [] hcm] at hc
        obtain ⟨r, hr, hrne⟩ := h c ci hc u hu
        by_cases hua : a = u
        · subst hua
          exact ⟨a :: t, alookup_ainsert_self _ _ _, by simp⟩
        · exact ⟨r, by rw [alookup_ainsert_ne _ _ _ _ hua]; exact hr, hrne⟩

theorem reachable_routesOK (st : Server) (h : Reachable st) : RoutesOK st := by
  induction h with
  | init id => intro c ci hc u hu; simp [Server.new, alookup] at hc
  | register st h uid name ih => exact routesOK_register st uid name ih
  | seqmsg st h wp s ih => exact routesOK_sequenced wp st s ih
  | clientmsg st h src msg res hr ih => exact routesOK_clientmsg st src msg res ih hr
  | servermsg st h msg ih => exact routesOK_server st msg ih
  | poll st h client ih => exact routesOK_poll st client ih

theorem single_isSome (st : Server) (h : RoutesOK st) (src dest : ClientId)
    (m : String) : (handle_single_message st src dest m).isSome = true := by
  cases hl : alookup dest st.clients with
  | none => simp [handle_single_message, hl]
  | some client =>
    cases hstuff : client.stuff with
    | Local name ls =>
      by_cases hcap : MAILBOX_SIZE ≤ client.mailbox.length
      · simp [handle_single_message, hl, hstuff, hcap]
      · simp [handle_single_message, hl, hstuff, hcap]
    | Remote sv =>
      cases sv with
      | none =>
        by_cases hcap : MAILBOX_SIZE ≤ client.mailbox.length
        · simp [handle_single_message, hl, hstuff, hcap]
        · simp [handle_single_message, hl, hstuff, hcap]
      | some s =>
        obtain ⟨r, hr, hrne⟩ := h dest client hl s hstuff
        obtain ⟨rh, rt, rfl⟩ : ∃ rh rt, r = rh :: rt := by
          cases r with
          | nil => exact absurd rfl hrne
          | cons x xs => exact ⟨x, xs, rfl⟩
        obtain ⟨lb, hlb⟩ := getLast?_cons_exists rh rt
        simp [handle_single_message, hl, hstuff, hr, hlb]

theorem msgs_isSome (st : Server) (h : RoutesOK st) (src : ClientId)
    (dests : List ClientId) (content : String) :
    (handle_msgs st src dests content).isSome = true := by
  induction dests generalizing st with
  | nil => simp [handle_msgs]
  | cons d rest ih =>
    unfold handle_msgs
    obtain ⟨q, h1⟩ := Option.isSome_iff_exists.mp (single_isSome st h src d content)
    obtain ⟨r, st'⟩ := q
    rw [h1]
    dsimp only
    have hOK' : RoutesOK st' := routesOK_single st src d content (r, st') h h1
    obtain ⟨q2, h2⟩ := Option.isSome_iff_exists.mp (ih st' hOK')
    obtain ⟨rs, st''⟩ := q2
    rw [h2]
    simp

theorem clientmsg_isSome (st : Server) (h : RoutesOK st) (src : ClientId)
    (msg : ClientMessage) : (handle_client_message st src msg).isSome = true := by
  cases msg with
  | Text dest content =>
    simp only [handle_client_message]
    obtain ⟨q, h1⟩ := Option.isSome_iff_exists.mp (single_isSome st h src dest content)
    obtain ⟨r, st'⟩ := q
    rw [h1]
    simp
  | MText dest content => exact msgs_isSome st h src dest content

/-- C10: in every server state reachable from `Server.new id` through the
public operations, every client record that is `Remote { via = Some s } ` has
a corresponding non-empty entry at key `s` in the routing table; hence the two
`.expect()` unwraps on the routing-table lookup in `handle_single_message`'s
Transfer branch can never panic: `handle_client_message` is total (`isSome`)
on reachable states. -/
theorem C10_transfer_never_panics (st : Server) (h : Reachable st) :
    (∀ c ci, alookup c st.clients = some ci → ∀ s, ci.stuff = .Remote (some s) →
      ∃ r, alookup s st.routes = some r ∧ r ≠ []) ∧
    (∀ src msg, (handle_client_message st src msg).isSome = true) := by
  have hOK := reachable_routesOK st h
  exact ⟨hOK, fun src msg => clientmsg_isSome st hOK src msg⟩

theorem C10_transfer_never_panics_witness :
    (handle_client_message
      ((handle_server_message ((register_local_client (Server.new 0) 1 "user").2)
        (.Announce [3, 4, 5] [(2, "ext")])).2) 1 (.Text 2 "Hi")).isSome = true :=
  (C10_transfer_never_panics _
    (Reachable.servermsg _ (Reachable.register _ (Reachable.init 0) 1 "user") _)).2
    1 (.Text 2 "Hi")

/-! Section: C3: the mailbox capacity bound -/

theorem mailboxOK_insert (st : Server) (h : MailboxOK st) (k : ClientId)
    (ci : ClientInfo) (hci : ci.mailbox.length ≤ MAILBOX_SIZE) :
    MailboxOK { st with clients := ainsert k ci st.clients } := by
  intro c ci' hc
  by_cases hk : k = c
  · subst hk
    rw [alookup_ainsert_self] at hc
    cases hc
    exact hci
  · rw [alookup_ainsert_ne _ _ _ _ hk] at hc
    exact h c ci' hc

theorem mailboxOK_register (st : Server) (uid : ClientId) (name : String)
    (h : MailboxOK st) : MailboxOK (register_local_client st uid name).2 :=
  mailboxOK_insert st h uid _ (Nat.zero_le _)

theorem mailboxOK_sequenced {A : Type} (wp : Nat → Nat → Bool) (st : Server)
    (s : Sequence A) (h : MailboxOK st) :
    MailboxOK (handle_sequenced_message wp st s).2 := by
  unfold handle_sequenced_message
  repeat' split
  all_goals first
  | exact h
  | skip
  next =>
    rename ClientInfo => client
    rename (alookup s.src st.clients = some client) => hlook
    exact mailboxOK_insert st h _ _ (h s.src client hlook)

theorem mailboxOK_single (st : Server) (src dest : ClientId) (m : String)
    (p : ClientReply × Server) (h : MailboxOK st)
    (hp : handle_single_message st src dest m = some p) : MailboxOK p.2 := by
  unfold handle_single_message at hp
  repeat' split at hp
  all_goals first
  | exact Option.noConfusion hp
  | (cases hp; exact h)
  | skip
  next =>
    rename ClientInfo => client
    rename (¬ MAILBOX_SIZE ≤ client.mailbox.length) => hcap
    cases hp
    exact mailboxOK_insert st h _ _
      (by simp [MAILBOX_SIZE] at hcap ⊢; omega)
  next =>
    rename ClientInfo => client
    rename (¬ MAILBOX_SIZE ≤ client.mailbox.length) => hcap
    cases hp
    exact mailboxOK_insert st h _ _
      (by simp [MAILBOX_SIZE] at hcap ⊢; omega)
  next =>
    cases hp
    exact mailboxOK_insert st h _ _ (by norm_num [MAILBOX_SIZE])

theorem mailboxOK_msgs (st : Server) (src : ClientId) (dests : List ClientId)
    (content : String) (p : List ClientReply × Server) (h : MailboxOK st)
    (hp : handle_msgs st src dests content = some p) : MailboxOK p.2 := by
  induction dests generalizing st p with
  | nil => unfold handle_msgs at hp; cases hp; exact h
  | cons d rest ih =>
    unfold handle_msgs at hp
    split at hp
    · exact Option.noConfusion hp
    · rename_i r st' h1
      split at hp
      · exact Option.noConfusion hp
      · rename_i rs st'' h2
        cases hp
        exact ih st' (rs, st'') (mailboxOK_single st src d content (r, st') h h1) h2

theorem mailboxOK_clientmsg (st : Server) (src : ClientId) (msg : ClientMessage)
    (p : List ClientReply × Server) (h : MailboxOK st)
    (hp : handle_client_message st src msg = some p) : MailboxOK p.2 := by
  cases msg with
  | Text dest content =>
    simp only [handle_client_message] at hp
    split at hp
    · exact Option.noConfusion hp
    · rename_i r st' h1
      cases hp
      exact mailboxOK_single st src dest content (r, st') h h1
  | MText dest content => exact mailboxOK_msgs st src dest content p h hp

theorem mailboxOK_poll (st : Server) (c : ClientId) (h : MailboxOK st) :
    MailboxOK (client_poll st c).2 := by
  unfold client_poll
  repeat' split
  all_goals first
  | exact h
  | skip
  next =>
    rename ClientInfo => client
    rename (alookup c st.clients = some client) => hlook
    rename (client.mailbox = _ :: _) => hmb
    have hlen := h c client hlook
    rw [hmb] at hlen
    exact mailboxOK_insert st h _ _ (by simp at hlen ⊢; omega)

theorem mailboxOK_announce_clients (selfId rs nh : ServerId) :
    ∀ (todo : List (ClientId × String)) (m : List (ClientId × ClientInfo))
      (acc : List Outgoing),
      (∀ c ci, alookup c m = some ci → ci.mailbox.length ≤ MAILBOX_SIZE) →
      ∀ c ci, alookup c (announce_clients selfId rs nh todo m acc).1 = some ci →
        ci.mailbox.length ≤ MAILBOX_SIZE := by
  intro todo
  induction todo with
  | nil => intro m acc hm; exact hm
  | cons p rest ih =>
    intro m acc hm
    obtain ⟨k, nm⟩ := p
    have hstep : ∀ (acc' : List Outgoing) c ci,
        alookup c (announce_clients selfId rs nh rest
          (ainsert k ⟨.Remote (some nh), []⟩ m) acc').1 = some ci →
        ci.mailbox.length ≤ MAILBOX_SIZE := by
      intro acc' c ci hc
      refine ih _ acc' ?_ c ci hc
      intro c' ci' hc'
      by_cases hk : k = c'
      · subst hk
        rw [alookup_ainsert_self] at hc'
        cases hc'
        exact Nat.zero_le _
      · rw [alookup_ainsert_ne _ _ _ _ hk] at hc'
        exact hm c' ci' hc'
    unfold announce_clients
    split
    · exact hstep _
    · exact hstep _

theorem mailboxOK_announce (st : Server) (route : List ServerId)
    (clients : List (ClientId × String)) (h : MailboxOK st) :
    MailboxOK (handle_server_message st (.Announce route clients)).2 := by
  cases route with
  | nil => rw [handle_server_announce_nil]; exact h
  | cons a t =>
    obtain ⟨b, hb⟩ := getLast?_cons_exists a t
    rw [handle_server_announce_cons st a t clients b hb]
    intro c ci hc
    exact mailboxOK_announce_clients st.id b a clients st.clients [] h c ci hc

theorem reachableNF_mailboxOK (st : Server) (h : ReachableNF st) : MailboxOK st := by
  induction h with
  | init id => intro c ci hc; simp [Server.new, alookup] at hc
  | register st h uid name ih => exact mailboxOK_register st uid name ih
  | seqmsg st h wp s ih => exact mailboxOK_sequenced wp st s ih
  | clientmsg st h src msg res hr ih => exact mailboxOK_clientmsg st src msg res ih hr
  | announce st h route clients ih => exact mailboxOK_announce st route clients ih
  | poll st h client ih => exact mailboxOK_poll st client ih

set_option maxRecDepth 8000 in
/-- C3 (counterexample): the claim says every reachable state keeps every
mailbox at length at most `MAILBOX_SIZE`. But a single inter-server
`Message` whose dsts lists a Local client `MAILBOX_SIZE + 1` times is
delivered with no capacity check (erasmus.rs line 230): the reachable state
`overflowState` holds `MAILBOX_SIZE + 1` entries in client 1's mailbox. -/
theorem C3_mailbox_overflow_counterexample :
    Reachable overflowState ∧ MAILBOX_SIZE < mailbox_len overflowState 1 :=
  ⟨Reachable.servermsg _ (Reachable.register _ (Reachable.init 0) 1 "n") _,
   by decide⟩

/-- C3 (amended): in every state reachable without inter-server `Message`
deliveries (register, sequenced messages, client messages, polls and
Announces), every client's mailbox has length at most `MAILBOX_SIZE`, and a
client-message addition to a full mailbox (of a Local or buffered
`Remote { via = None } ` destination) is refused with `Error (BoxFull dest)`
and leaves the state unchanged. (Inter-server `Message` deliveries to Local
clients append with no capacity check and can exceed the bound.) -/
theorem C3_mailbox_bound_amended :
    (∀ st, ReachableNF st → ∀ c ci, alookup c st.clients = some ci →
      ci.mailbox.length ≤ MAILBOX_SIZE) ∧
    (∀ (st : Server) (src dest : ClientId) (m : String) (ci : ClientInfo),
      alookup dest st.clients = some ci → MAILBOX_SIZE ≤ ci.mailbox.length →
      (ci.stuff = .Remote none ∨ ∃ name ls, ci.stuff = .Local name ls) →
      handle_single_message st src dest m = some (.Error (.BoxFull dest), st)) := by
  constructor
  · exact fun st h => reachableNF_mailboxOK st h
  · intro st src dest m ci hci hcap hstuff
    rcases hstuff with hstuff | ⟨name, ls, hstuff⟩ <;>
      simp [handle_single_message, hci, hstuff, hcap]

set_option maxRecDepth 8000 in
theorem C3_mailbox_bound_amended_witness :
    handle_single_message
        (⟨0, [(2, ⟨.Remote none, List.replicate MAILBOX_SIZE ⟨0, "x"⟩⟩)], []⟩ : Server)
        1 2 "y" =
      some (.Error (.BoxFull 2),
        ⟨0, [(2, ⟨.Remote none, List.replicate MAILBOX_SIZE ⟨0, "x"⟩⟩)], []⟩) :=
  (C3_mailbox_bound_amended).2
    ⟨0, [(2, ⟨.Remote none, List.replicate MAILBOX_SIZE ⟨0, "x"⟩⟩)], []⟩ 1 2 "y"
    ⟨.Remote none, List.replicate MAILBOX_SIZE ⟨0, "x"⟩⟩ (by decide)
    (by simp) (Or.inl rfl)

end ChatProto
